import Mathlib

set_option maxHeartbeats 1000000
set_option autoImplicit false
set_option linter.unusedVariables false

/-!
Verification of the MongoDB query-builder core of `infra/query.py`
(class `Query`): the condition translator `method_parser`, the
filter-merge logic `parse_filters` / `array_contains_filter_parser`,
the boolean-group accumulation `__factory_and_or_nor` with its public
wrappers `and_search` / `or_search` / `nor_search` / `search`, and the
execution primitives `get_by_id`, `get_all`, `get_one_or_none`,
`count`, `distinct` built on top of the snapshot `_get_filter`.

Python dictionaries are embedded as insertion-ordered association
lists with unique keys; Python exceptions as an `Except` error
component; `logging.error` / `logging.warning` events as an explicit
log list.  A separate heap model at the end of the file captures the
`deepcopy` snapshot taken by `_get_filter`.
-/

namespace InfraMongo

/-- Python values as they flow through the query builder: numbers,
strings, booleans, `None`, dicts (insertion-ordered key/value lists)
and lists. -/
inductive Value where
  | int : Int → Value
  | str : String → Value
  | bool : Bool → Value
  | none : Value
  | dict : List (String × Value) → Value
  | list : List Value → Value

/-- Python runtime exceptions that the query-builder code can raise. -/
inductive PyErr where
  | typeError : String → PyErr
  | attributeError : String → PyErr
  | keyError : String → PyErr
  | valueError : String → PyErr

/-- Events emitted through `logging.error` / `logging.warning` by the
query builder: the unknown-operator error of `method_parser`, the
type-check error of its `checker` lambda, and the verbose filter dump
of `_get_filter`. -/
inductive LogMsg where
  | opNotAvailable : String → LogMsg
  | valueMustBe : String → LogMsg
  | queryFilter : Value → LogMsg

/-- Log trace of one call. -/
abbrev Logs := List LogMsg

/-- One `(field, operator, value)` condition triple, as passed to the
composition operations (`conditions: List[tuple]` in the source). -/
abbrev Cond := String × String × Value

/-- Lookup in a Python dict modelled as an association list
(`d.get(k)` / `k in d`). -/
def dictGet : List (String × Value) → String → Option Value
  | [], _ => Option.none
  | (k', v) :: rest, k => if k' = k then some v else dictGet rest k

/-- Store into a Python dict: an existing key keeps its position and
gets the new value, a fresh key is appended at the end (CPython
insertion-order semantics of `d[k] = v` / `d.update({k: v})`). -/
def dictSet : List (String × Value) → String → Value → List (String × Value)
  | [], k, v => [(k, v)]
  | (k', v') :: rest, k, v =>
    if k' = k then (k, v) :: rest else (k', v') :: dictSet rest k v

/-- Key-wise `base.update(**upd)` on Python dicts: every key of `upd`
is stored into `base` in order. -/
def dictUpdate (base : List (String × Value)) : List (String × Value) → List (String × Value)
  | [] => base
  | (k, v) :: rest => dictUpdate (dictSet base k v) rest

/-- The statement `old.update(**frag)` from the field-merge branches of
`parse_filters` and `array_contains_filter_parser`: Python first looks
up the `update` attribute on `old` (an `AttributeError` unless `old`
is a dict) and then unpacks `frag` with `**` (a `TypeError` unless
`frag` is a mapping); on success the fragments are merged key-wise. -/
def updateInto (old frag : Value) : Except PyErr Value :=
  match old with
  | .dict okvs =>
    match frag with
    | .dict fkvs => .ok (.dict (dictUpdate okvs fkvs))
    | _ => .error (.typeError "argument after ** must be a mapping")
  | _ => .error (.attributeError "object has no attribute update")

/-- Wraps the parsed inner filter of `array_contains_filter_parser`
into the element-match fragment (the `return {"$elemMatch": parsed_filter}`
line), propagating a raised error. -/
def acWrap (res : Except PyErr (List (String × Value) × Logs)) :
    Except PyErr (Value × Logs) :=
  match res with
  | .error e => .error e
  | .ok (d, lgs) => .ok (.dict [("$elemMatch", .dict d)], lgs)

/-- The non-recursive branches of the `conditions_available` table of
`Query.method_parser` (all operators except `array_contains`, which
recurses and is dispatched in `methodParser` itself):
`==` returns the literal value; `!=`, `>`, `>=`, `<`, `<=`, `in`,
`like`, `ilike`, `as_type` build their one-key fragments; `in_range`
evaluates `x["min"]` and `x["max"]` eagerly (so a non-dict value
raises `TypeError` and a dict missing a key raises `KeyError` before
the `checker` type test can log); `has_field` goes through `checker`,
logging and yielding `None` on a non-boolean flag; an operator not in
the table logs `Operator not available` and yields `None` without
raising. -/
def mpNonRec (field op : String) (v : Value) : Except PyErr (Value × Logs) :=
  if op = "==" then .ok (v, [])
  else if op = "!=" then .ok (.dict [("$ne", v)], [])
  else if op = ">" then .ok (.dict [("$gt", v)], [])
  else if op = ">=" then .ok (.dict [("$gte", v)], [])
  else if op = "<" then .ok (.dict [("$lt", v)], [])
  else if op = "<=" then .ok (.dict [("$lte", v)], [])
  else if op = "in" then .ok (.dict [("$in", v)], [])
  else if op = "in_range" then
    match v with
    | .dict kvs =>
      match dictGet kvs "min" with
      | Option.none => .error (.keyError "min")
      | some lo =>
        match dictGet kvs "max" with
        | Option.none => .error (.keyError "max")
        | some hi => .ok (.dict [("$gte", lo), ("$lte", hi)], [])
    | _ => .error (.typeError "value is not subscriptable")
  else if op = "like" then .ok (.dict [("$regex", v)], [])
  else if op = "ilike" then .ok (.dict [("$regex", v), ("$options", .str "i")], [])
  else if op = "has_field" then
    match v with
    | .bool b => .ok (.dict [("$exists", .bool b)], [])
    | _ => .ok (.none, [.valueMustBe "bool"])
  else if op = "as_type" then .ok (.dict [("$type", v)], [])
  else .ok (.none, [.opNotAvailable op])

mutual

/-- The translator `Query.method_parser`: one `(field, operator,
value)` triple to a Mongo filter fragment.  The `array_contains`
operator recursively translates its inner condition triples and wraps
them in an element-match fragment; every other operator (and the
unknown-operator soft failure) is dispatched through `mpNonRec`. -/
def methodParser (field op : String) (v : Value) : Except PyErr (Value × Logs) :=
  if op = "array_contains" then
    match v with
    | .list items => acWrap (acGo items [] [])
    | _ => .error (.typeError "conditions are not a list of triples")
  else mpNonRec field op v

/-- The loop of `array_contains_filter_parser`: decodes each inner
`(field, operator, value)` triple, translates it with the recursive
call to `method_parser`, and folds the fragment into `acc` with the
same present-key-merge / fresh-key-append logic as `parse_filters`,
threading the log list `lgs`.  A list element that is not a
`(str, str, value)` triple fails tuple unpacking. -/
def acGo : List Value → List (String × Value) → Logs →
    Except PyErr (List (String × Value) × Logs)
  | [], acc, lgs => .ok (acc, lgs)
  | item :: rest, acc, lgs =>
    match item with
    | .list [.str f, .str o, w] =>
      match dictGet acc f with
      | some old =>
        match methodParser f o w with
        | .error e => .error e
        | .ok (frag, lg) =>
          match updateInto old frag with
          | .error e => .error e
          | .ok merged => acGo rest (dictSet acc f merged) (lgs ++ lg)
      | Option.none =>
        match methodParser f o w with
        | .error e => .error e
        | .ok (frag, lg) => acGo rest (acc ++ [(f, frag)]) (lgs ++ lg)
    | _ => .error (.valueError "cannot unpack condition triple")

end

/-- The classmethod `Query.array_contains_filter_parser`: translates
the inner condition triples, merging repeated inner fields, and wraps
the result in an element-match fragment. -/
def arrayContainsFilterParser (v : Value) : Except PyErr (Value × Logs) :=
  match v with
  | .list items => acWrap (acGo items [] [])
  | _ => .error (.typeError "conditions are not a list of triples")

/-- The operator table keys of `conditions_available` in
`Query.method_parser`. -/
def availableOps : List String :=
  ["==", "!=", ">", ">=", "<", "<=", "in", "in_range", "like", "ilike",
   "has_field", "as_type", "array_contains"]


/-- The loop of `Query.parse_filters`: translates each `(field,
operator, value)` condition, merging a repeated field into its earlier
fragment via `updateInto` (the `new_filter.get(field).update(**...)`
branch) and appending a fresh field at the end (the
`new_filter.update({field: ...})` branch). -/
def pfLoop : List Cond → List (String × Value) → Logs →
    Except PyErr (List (String × Value) × Logs)
  | [], acc, lgs => .ok (acc, lgs)
  | (f, o, w) :: rest, acc, lgs =>
    match dictGet acc f with
    | some old =>
      match methodParser f o w with
      | .error e => .error e
      | .ok (frag, lg) =>
        match updateInto old frag with
        | .error e => .error e
        | .ok merged => pfLoop rest (dictSet acc f merged) (lgs ++ lg)
    | Option.none =>
      match methodParser f o w with
      | .error e => .error e
      | .ok (frag, lg) => pfLoop rest (acc ++ [(f, frag)]) (lgs ++ lg)

/-- `Query.parse_filters`: builds a fresh filter dict from a condition
list, starting from an empty accumulator. -/
def parseFilters (conds : List Cond) : Except PyErr (List (String × Value) × Logs) :=
  pfLoop conds [] []

/-- Builder state of one `Query` instance: the private mutable filter
accumulator `__filter` and the `verbose` flag set by `__init__`.  The
bound collection is not part of the state; executions receive the
storage-engine capability explicitly. -/
structure Query where
  filter : List (String × Value)
  verbose : Bool

/-- `Query.__init__`: the accumulator starts empty. -/
def Query.init (verbose : Bool) : Query := ⟨[], verbose⟩

/-- The per-condition loop of `Query.__factory_and_or_nor`: translates
each condition and appends the one-key fragment
`{field: method_parser(field, operator, value)}` to the group list.
Returns the loop status (a raised translator error propagates), the
fragments appended before any error (the list object is mutated in
place in the source, so a prefix survives an error), and the logs. -/
def factoryLoop : List Cond → (Except PyErr Unit) × List Value × Logs
  | [] => (.ok (), [], [])
  | (f, o, w) :: rest =>
    match methodParser f o w with
    | .error e => (.error e, [], [])
    | .ok (frag, lg) =>
      match factoryLoop rest with
      | (st, frags, lgs) => (st, Value.dict [(f, frag)] :: frags, lg ++ lgs)

/-- `Query.__factory_and_or_nor`: fetches the list stored under
`"$" + binary_operator` (a fresh empty list if the key is absent),
appends one fragment per condition, and stores the list back.  When
the key already holds a list, appends mutate that stored list in
place, so fragments appended before a translator error persist even
though the trailing `update` line is never reached; when the key is
absent, the fresh list is discarded on error.  A non-list stored at
the key has no `append` attribute, so the first condition (after its
translation) raises `AttributeError`. -/
def factoryAndOrNor (q : Query) (conds : List Cond) (binop : String) :
    (Except PyErr Unit) × Query × Logs :=
  let key := "$" ++ binop
  match dictGet q.filter key with
  | some (Value.list l0) =>
    match factoryLoop conds with
    | (st, frags, lgs) =>
      (st, { q with filter := dictSet q.filter key (.list (l0 ++ frags)) }, lgs)
  | some other =>
    match conds with
    | [] => (.ok (), { q with filter := dictSet q.filter key other }, [])
    | (f, o, w) :: _ =>
      match methodParser f o w with
      | .error e => (.error e, q, [])
      | .ok (_, lg) => (.error (.attributeError "object has no attribute append"), q, lg)
  | Option.none =>
    match factoryLoop conds with
    | (.ok (), frags, lgs) =>
      (.ok (), { q with filter := dictSet q.filter key (.list frags) }, lgs)
    | (.error e, _, lgs) => (.error e, q, lgs)

/-- `Query.and_search`. -/
def Query.and_search (q : Query) (conds : List Cond) : (Except PyErr Unit) × Query × Logs :=
  factoryAndOrNor q conds "and"

/-- `Query.or_search`. -/
def Query.or_search (q : Query) (conds : List Cond) : (Except PyErr Unit) × Query × Logs :=
  factoryAndOrNor q conds "or"

/-- `Query.nor_search`. -/
def Query.nor_search (q : Query) (conds : List Cond) : (Except PyErr Unit) × Query × Logs :=
  factoryAndOrNor q conds "nor"

/-- `Query.search`: `self.__filter.update(self.parse_filters(conditions))`.
A raised translator error leaves the accumulator untouched (the
`update` line is never reached); on success the freshly parsed dict is
merged into the accumulator key-wise, so a top-level key already
present is replaced by the new call's fragment. -/
def Query.search (q : Query) (conds : List Cond) : (Except PyErr Unit) × Query × Logs :=
  match parseFilters conds with
  | .error e => (.error e, q, [])
  | .ok (nf, lgs) => (.ok (), { q with filter := dictUpdate q.filter nf }, lgs)

/-- Errors of the external storage engine (pymongo): always propagated
unchanged by the builder. -/
inductive EngErr where
  | fail : String → EngErr

/-- Capability surface of the storage engine used by the execution
operations: `find`, `find_one`, `count_documents`, `distinct` on the
bound collection. -/
structure Engine where
  find : Value → Option (List (String × Int)) → Nat → Option Value →
    Except EngErr (List Value)
  find_one : Value → Option (List (String × Int)) → Option Value →
    Except EngErr (Option Value)
  count_documents : Value → Except EngErr Nat
  distinct : String → Value → Except EngErr (List Value)

/-- `Query._DEFAULT_QUERY_LIMIT`. -/
def DEFAULT_QUERY_LIMIT : Nat := 500

/-- `Query._get_filter`: logs the filter when verbose and returns a
deep copy of the accumulator.  In this pure value model the deep copy
is the value itself; the heap model at the end of the file proves the
isolation property of the `deepcopy` call. -/
def Query.get_filter (q : Query) : Value × Logs :=
  (Value.dict q.filter, if q.verbose then [LogMsg.queryFilter (Value.dict q.filter)] else [])

/-- `Query.get_all`: delegates to `find` with the snapshot, the sort
order, the limit and the projection; the accumulator is unchanged. -/
def Query.get_all (q : Query) (eng : Engine) (sort : Option (List (String × Int)))
    (limit : Nat) (projection : Option Value) :
    Except EngErr (List Value) × Query × Logs :=
  (eng.find q.get_filter.1 sort limit projection, q, q.get_filter.2)

/-- `Query.get_one_or_none`: delegates to `find_one` with the
snapshot; the accumulator is unchanged. -/
def Query.get_one_or_none (q : Query) (eng : Engine)
    (sort : Option (List (String × Int))) (projection : Option Value) :
    Except EngErr (Option Value) × Query × Logs :=
  (eng.find_one q.get_filter.1 sort projection, q, q.get_filter.2)

/-- `Query.count`: delegates to `count_documents` with the snapshot;
the accumulator is unchanged. -/
def Query.count (q : Query) (eng : Engine) : Except EngErr Nat × Query × Logs :=
  (eng.count_documents q.get_filter.1, q, q.get_filter.2)

/-- `Query.distinct`: delegates to the engine's `distinct` with the
snapshot; the accumulator is unchanged. -/
def Query.distinct (q : Query) (eng : Engine) (key : String) :
    Except EngErr (List Value) × Query × Logs :=
  (eng.distinct key q.get_filter.1, q, q.get_filter.2)

/-- `Query.get_by_id`: overwrites the accumulator with the exact-id
filter, delegates to `get_one_or_none`, and (only when that call
returns rather than raises) resets the accumulator to the empty dict.
When the engine raises, the exception propagates and the reset line is
never executed, so the accumulator is left holding the exact-id
filter. -/
def Query.get_by_id (q : Query) (eng : Engine) (id : String) (projection : Option Value) :
    Except EngErr (Option Value) × Query × Logs :=
  let q1 : Query := { q with filter := [("_id", Value.str id)] }
  match Query.get_one_or_none q1 eng Option.none projection with
  | (.ok r, q2, lg) => (.ok r, { q2 with filter := [] }, lg)
  | (.error e, q2, lg) => (.error e, q2, lg)

/-! ### Heap model of the `deepcopy` snapshot

`Query._get_filter` returns `deepcopy(self.__filter)`.  To state what
the deep copy buys — that no later mutation of the builder's object
graph can change the snapshot handed to the storage engine — we model
Python objects with an explicit heap: compound objects (dicts, lists)
live at addresses, scalars are immediate.  `deepCopyV` is the model of
`copy.deepcopy`: it allocates fresh nodes for every compound object
reachable from the value.  `readV` extracts the pure value tree seen
through the heap. -/

/-- A Python runtime value in the heap model: immediate scalars or a
reference to a compound object. -/
inductive HVal where
  | hint : Int → HVal
  | hstr : String → HVal
  | hbool : Bool → HVal
  | hnone : HVal
  | ref : Nat → HVal
deriving DecidableEq

/-- A compound heap object: a dict or a list node. -/
inductive HNode where
  | dict : List (String × HVal) → HNode
  | arr : List HVal → HNode
deriving DecidableEq

/-- The heap: node `a` lives at index `a`; allocation appends. -/
abbrev Heap := List HNode

/-- Pure value trees, the observable content of a heap value. -/
inductive PVal where
  | pint : Int → PVal
  | pstr : String → PVal
  | pbool : Bool → PVal
  | pnull : PVal
  | pdict : List (String × PVal) → PVal
  | parr : List PVal → PVal

/-- Reads each value of a key/value list with `rd`. -/
def readKVsGo (rd : HVal → Option PVal) :
    List (String × HVal) → Option (List (String × PVal))
  | [] => some []
  | (k, x) :: rest =>
    match rd x with
    | Option.none => Option.none
    | some p =>
      match readKVsGo rd rest with
      | Option.none => Option.none
      | some ps => some ((k, p) :: ps)

/-- Reads each element of a list with `rd`. -/
def readArrGo (rd : HVal → Option PVal) : List HVal → Option (List PVal)
  | [] => some []
  | x :: rest =>
    match rd x with
    | Option.none => Option.none
    | some p =>
      match readArrGo rd rest with
      | Option.none => Option.none
      | some ps => some (p :: ps)

/-- Reads the pure value tree of `v` through heap `h`, up to nesting
depth `fuel`; a dangling reference or exhausted fuel reads as
`Option.none`. -/
def readV : Nat → Heap → HVal → Option PVal
  | _, _, .hint i => some (.pint i)
  | _, _, .hstr s => some (.pstr s)
  | _, _, .hbool b => some (.pbool b)
  | _, _, .hnone => some .pnull
  | 0, _, .ref _ => Option.none
  | fuel + 1, h, .ref a =>
    match h[a]? with
    | some (.dict kvs) => (readKVsGo (fun x => readV fuel h x) kvs).map .pdict
    | some (.arr vs) => (readArrGo (fun x => readV fuel h x) vs).map .parr
    | Option.none => Option.none

/-- Copies each value of a key/value list with `cp`, threading the
heap left to right. -/
def copyKVsGo (cp : Heap → HVal → Option (Heap × HVal)) :
    Heap → List (String × HVal) → Option (Heap × List (String × HVal))
  | h, [] => some (h, [])
  | h, (k, x) :: rest =>
    match cp h x with
    | Option.none => Option.none
    | some (h1, x') =>
      match copyKVsGo cp h1 rest with
      | Option.none => Option.none
      | some (h2, rest') => some (h2, (k, x') :: rest')

/-- Copies each element of a list with `cp`, threading the heap. -/
def copyArrGo (cp : Heap → HVal → Option (Heap × HVal)) :
    Heap → List HVal → Option (Heap × List HVal)
  | h, [] => some (h, [])
  | h, x :: rest =>
    match cp h x with
    | Option.none => Option.none
    | some (h1, x') =>
      match copyArrGo cp h1 rest with
      | Option.none => Option.none
      | some (h2, rest') => some (h2, x' :: rest')

/-- The model of `copy.deepcopy` used by `Query._get_filter`: scalars
are shared, every reachable compound node is re-allocated as a fresh
node (at the end of the heap) whose children are themselves deep
copies. -/
def deepCopyV : Nat → Heap → HVal → Option (Heap × HVal)
  | _, h, .hint i => some (h, .hint i)
  | _, h, .hstr s => some (h, .hstr s)
  | _, h, .hbool b => some (h, .hbool b)
  | _, h, .hnone => some (h, .hnone)
  | 0, _, .ref _ => Option.none
  | fuel + 1, h, .ref a =>
    match h[a]? with
    | some (.dict kvs) =>
      match copyKVsGo (fun hh x => deepCopyV fuel hh x) h kvs with
      | Option.none => Option.none
      | some (h1, kvs') => some (h1 ++ [HNode.dict kvs'], .ref h1.length)
    | some (.arr vs) =>
      match copyArrGo (fun hh x => deepCopyV fuel hh x) h vs with
      | Option.none => Option.none
      | some (h1, vs') => some (h1 ++ [HNode.arr vs'], .ref h1.length)
    | Option.none => Option.none

/-- `v` only references addresses in `[lo, hi)`. -/
def valRangeB (lo hi : Nat) : HVal → Bool
  | .ref a => decide (lo ≤ a) && decide (a < hi)
  | _ => true

/-- Every reference held by the node lies in `[lo, hi)`. -/
def nodeRangeB (lo hi : Nat) : HNode → Bool
  | .dict kvs => kvs.all fun kv => valRangeB lo hi kv.2
  | .arr vs => vs.all fun x => valRangeB lo hi x

/-- Well-formed heap: every node only references existing addresses. -/
def heapWFB (h : Heap) : Bool :=
  h.all fun nd => nodeRangeB 0 h.length nd

/-- A copy primitive is good when it only extends the heap, returns a
value referencing only the freshly allocated segment, and keeps that
segment closed (fresh nodes reference only fresh nodes). -/
def CopyGood (cp : Heap → HVal → Option (Heap × HVal)) : Prop :=
  ∀ h v h' v', cp h v = some (h', v') →
    (∃ t, h' = h ++ t) ∧ valRangeB h.length h'.length v' = true ∧
    ∀ a nd, h.length ≤ a → a < h'.length → h'[a]? = some nd →
      nodeRangeB h.length h'.length nd = true

/-- A storage-engine stub whose operations always succeed. -/
def engStubOk : Engine :=
  ⟨fun _ _ _ _ => .ok [], fun _ _ _ => .ok (some (Value.int 7)),
   fun _ => .ok 0, fun _ _ => .ok []⟩

/-- A storage-engine stub whose operations always raise. -/
def engStubErr : Engine :=
  ⟨fun _ _ _ _ => .error (.fail "connection reset"),
   fun _ _ _ => .error (.fail "connection reset"),
   fun _ => .error (.fail "connection reset"),
   fun _ _ => .error (.fail "connection reset")⟩

/-- Concrete heap for the snapshot-isolation witness: address 0 holds
an inner dict, address 1 the accumulator dict referencing it. -/
def snapHeap0 : Heap :=
  [HNode.dict [("y", HVal.hint 5)], HNode.dict [("x", HVal.ref 0)]]

/-- The heap after deep-copying the accumulator of `snapHeap0`: the
two reachable nodes are re-allocated at fresh addresses 2 and 3. -/
def snapHeap2 : Heap :=
  snapHeap0 ++ [HNode.dict [("y", HVal.hint 5)], HNode.dict [("x", HVal.ref 2)]]

/-- `snapHeap2` after mutating both pre-existing nodes (the
accumulator graph), leaving the copied segment untouched. -/
def snapHeapM : Heap :=
  [HNode.dict [("y", HVal.hint 99)], HNode.dict [("x", HVal.hint 0), ("z", HVal.hint 1)],
   HNode.dict [("y", HVal.hint 5)], HNode.dict [("x", HVal.ref 2)]]

/-- Reading an index inside the left part of an appended list. -/
theorem getElem?_append_lt {A : Type} (l1 l2 : List A) (n : Nat) (hn : n < l1.length) :
    (l1 ++ l2)[n]? = l1[n]? := by
  rw [List.getElem?_append]
  simp [hn]

/-- Widening the admissible address interval preserves `valRangeB`. -/
theorem valRangeB_mono {lo hi lo' hi' : Nat} (hlo : lo' ≤ lo) (hhi : hi ≤ hi')
    {v : HVal} (hv : valRangeB lo hi v = true) : valRangeB lo' hi' v = true := by
  cases v <;> simp [valRangeB] at hv ⊢ <;> omega

/-- Widening the admissible address interval preserves `nodeRangeB`. -/
theorem nodeRangeB_mono {lo hi lo' hi' : Nat} (hlo : lo' ≤ lo) (hhi : hi ≤ hi')
    {nd : HNode} (hnd : nodeRangeB lo hi nd = true) : nodeRangeB lo' hi' nd = true := by
  cases nd <;> simp only [nodeRangeB, List.all_eq_true] at hnd ⊢ <;>
    exact fun x hx => valRangeB_mono hlo hhi (hnd x hx)

/-- `copyKVsGo` of a good copy primitive is itself good (element-wise). -/
theorem copyKVsGo_good {cp : Heap → HVal → Option (Heap × HVal)} (hcp : CopyGood cp) :
    ∀ (kvs : List (String × HVal)) (h h2 : Heap) (kvs' : List (String × HVal)),
      copyKVsGo cp h kvs = some (h2, kvs') →
      (∃ t, h2 = h ++ t) ∧
      (∀ kv ∈ kvs', valRangeB h.length h2.length kv.2 = true) ∧
      (∀ a nd, h.length ≤ a → a < h2.length → h2[a]? = some nd →
        nodeRangeB h.length h2.length nd = true) := by
  intro kvs
  induction kvs with
  | nil =>
    intro h h2 kvs' heq
    simp [copyKVsGo] at heq
    obtain ⟨rfl, rfl⟩ := heq
    exact ⟨⟨[], by simp⟩, by simp, fun a nd ha1 ha2 _ => absurd ha2 (by omega)⟩
  | cons kx rest ih =>
    obtain ⟨k, x⟩ := kx
    intro h h2 kvs' heq
    simp only [copyKVsGo] at heq
    cases hcx : cp h x with
    | none => simp [hcx] at heq
    | some p =>
      obtain ⟨h1, x'⟩ := p
      simp only [hcx] at heq
      cases hrest : copyKVsGo cp h1 rest with
      | none => simp [hcx, hrest] at heq
      | some p2 =>
        obtain ⟨hh2, rest'⟩ := p2
        simp only [hrest, Option.some.injEq, Prod.mk.injEq] at heq
        obtain ⟨rfl, rfl⟩ := heq
        obtain ⟨⟨t1, rfl⟩, hvx, hseg1⟩ := hcp h x _ _ hcx
        obtain ⟨⟨t2, rfl⟩, hvrest, hseg2⟩ := ih _ _ _ hrest
        have hlen1 : h.length ≤ (h ++ t1).length := by simp
        have hlen2 : (h ++ t1).length ≤ (h ++ t1 ++ t2).length := by simp
        refine ⟨⟨t1 ++ t2, by simp⟩, ?_, ?_⟩
        · intro kv hkv
          rcases List.mem_cons.mp hkv with rfl | hkv
          · exact valRangeB_mono le_rfl hlen2 hvx
          · exact valRangeB_mono hlen1 le_rfl (hvrest kv hkv)
        · intro a nd ha1 ha2 hget
          by_cases hcase : a < (h ++ t1).length
          · have : (h ++ t1 ++ t2)[a]? = (h ++ t1)[a]? := getElem?_append_lt _ _ _ hcase
            rw [this] at hget
            exact nodeRangeB_mono le_rfl hlen2 (hseg1 a nd ha1 hcase hget)
          · exact nodeRangeB_mono hlen1 le_rfl
              (hseg2 a nd (by omega) ha2 hget)

/-- `copyArrGo` of a good copy primitive is itself good. -/
theorem copyArrGo_good {cp : Heap → HVal → Option (Heap × HVal)} (hcp : CopyGood cp) :
    ∀ (vs : List HVal) (h h2 : Heap) (vs' : List HVal),
      copyArrGo cp h vs = some (h2, vs') →
      (∃ t, h2 = h ++ t) ∧
      (∀ x ∈ vs', valRangeB h.length h2.length x = true) ∧
      (∀ a nd, h.length ≤ a → a < h2.length → h2[a]? = some nd →
        nodeRangeB h.length h2.length nd = true) := by
  intro vs
  induction vs with
  | nil =>
    intro h h2 vs' heq
    simp [copyArrGo] at heq
    obtain ⟨rfl, rfl⟩ := heq
    exact ⟨⟨[], by simp⟩, by simp, fun a nd ha1 ha2 _ => absurd ha2 (by omega)⟩
  | cons x rest ih =>
    intro h h2 vs' heq
    simp only [copyArrGo] at heq
    cases hcx : cp h x with
    | none => simp [hcx] at heq
    | some p =>
      obtain ⟨h1, x'⟩ := p
      simp only [hcx] at heq
      cases hrest : copyArrGo cp h1 rest with
      | none => simp [hcx, hrest] at heq
      | some p2 =>
        obtain ⟨hh2, rest'⟩ := p2
        simp only [hrest, Option.some.injEq, Prod.mk.injEq] at heq
        obtain ⟨rfl, rfl⟩ := heq
        obtain ⟨⟨t1, rfl⟩, hvx, hseg1⟩ := hcp h x _ _ hcx
        obtain ⟨⟨t2, rfl⟩, hvrest, hseg2⟩ := ih _ _ _ hrest
        have hlen1 : h.length ≤ (h ++ t1).length := by simp
        have hlen2 : (h ++ t1).length ≤ (h ++ t1 ++ t2).length := by simp
        refine ⟨⟨t1 ++ t2, by simp⟩, ?_, ?_⟩
        · intro y hy
          rcases List.mem_cons.mp hy with rfl | hy
          · exact valRangeB_mono le_rfl hlen2 hvx
          · exact valRangeB_mono hlen1 le_rfl (hvrest y hy)
        · intro a nd ha1 ha2 hget
          by_cases hcase : a < (h ++ t1).length
          · have : (h ++ t1 ++ t2)[a]? = (h ++ t1)[a]? := getElem?_append_lt _ _ _ hcase
            rw [this] at hget
            exact nodeRangeB_mono le_rfl hlen2 (hseg1 a nd ha1 hcase hget)
          · exact nodeRangeB_mono hlen1 le_rfl
              (hseg2 a nd (by omega) ha2 hget)

/-- The model of `deepcopy` is a good copy primitive at every fuel:
it only appends to the heap, and everything reachable from the
returned value lives in the freshly allocated segment. -/
theorem deepCopyV_good : ∀ fuel : Nat, CopyGood (fun h v => deepCopyV fuel h v) := by
  intro fuel
  induction fuel with
  | zero =>
    intro h v h' v' heq
    cases v <;> simp [deepCopyV] at heq <;>
      (obtain ⟨rfl, rfl⟩ := heq;
       exact ⟨⟨[], by simp⟩, by simp [valRangeB],
         fun a nd ha1 ha2 _ => absurd ha2 (by omega)⟩)
  | succ fuel ih =>
    intro h v h' v' heq
    cases v with
    | hint i =>
      simp [deepCopyV] at heq
      obtain ⟨rfl, rfl⟩ := heq
      exact ⟨⟨[], by simp⟩, by simp [valRangeB],
        fun a nd ha1 ha2 _ => absurd ha2 (by omega)⟩
    | hstr s =>
      simp [deepCopyV] at heq
      obtain ⟨rfl, rfl⟩ := heq
      exact ⟨⟨[], by simp⟩, by simp [valRangeB],
        fun a nd ha1 ha2 _ => absurd ha2 (by omega)⟩
    | hbool b =>
      simp [deepCopyV] at heq
      obtain ⟨rfl, rfl⟩ := heq
      exact ⟨⟨[], by simp⟩, by simp [valRangeB],
        fun a nd ha1 ha2 _ => absurd ha2 (by omega)⟩
    | hnone =>
      simp [deepCopyV] at heq
      obtain ⟨rfl, rfl⟩ := heq
      exact ⟨⟨[], by simp⟩, by simp [valRangeB],
        fun a nd ha1 ha2 _ => absurd ha2 (by omega)⟩
    | ref a =>
      simp only [deepCopyV] at heq
      cases hget : h[a]? with
      | none => rw [hget] at heq; simp at heq
      | some nd =>
        cases nd with
        | dict kvs =>
          cases hcp : copyKVsGo (fun hh x => deepCopyV fuel hh x) h kvs with
          | none => simp [hget, hcp] at heq
          | some p =>
            obtain ⟨h1, kvs'⟩ := p
            simp only [hget, hcp, Option.some.injEq, Prod.mk.injEq] at heq
            obtain ⟨rfl, rfl⟩ := heq
            obtain ⟨⟨t1, rfl⟩, hvals, hseg⟩ := copyKVsGo_good ih kvs h _ _ hcp
            refine ⟨⟨t1 ++ [HNode.dict kvs'], by simp⟩, ?_, ?_⟩
            · simp [valRangeB]
            · intro b nb hb1 hb2 hbget
              simp only [List.length_append, List.length_cons, List.length_nil] at hb2
              by_cases hcase : b < (h ++ t1).length
              · have : ((h ++ t1) ++ [HNode.dict kvs'])[b]? = (h ++ t1)[b]? :=
                  getElem?_append_lt _ _ _ hcase
                rw [this] at hbget
                exact nodeRangeB_mono le_rfl (by simp) (hseg b nb hb1 hcase hbget)
              · have hb : b = (h ++ t1).length := by
                  simp only [List.length_append] at hcase ⊢
                  omega
                subst hb
                rw [List.getElem?_concat_length] at hbget
                obtain rfl := Option.some.inj hbget
                simp only [nodeRangeB, List.all_eq_true]
                exact fun kv hkv => valRangeB_mono le_rfl (by simp) (hvals kv hkv)
        | arr vs =>
          cases hcp : copyArrGo (fun hh x => deepCopyV fuel hh x) h vs with
          | none => simp [hget, hcp] at heq
          | some p =>
            obtain ⟨h1, vs'⟩ := p
            simp only [hget, hcp, Option.some.injEq, Prod.mk.injEq] at heq
            obtain ⟨rfl, rfl⟩ := heq
            obtain ⟨⟨t1, rfl⟩, hvals, hseg⟩ := copyArrGo_good ih vs h _ _ hcp
            refine ⟨⟨t1 ++ [HNode.arr vs'], by simp⟩, ?_, ?_⟩
            · simp [valRangeB]
            · intro b nb hb1 hb2 hbget
              simp only [List.length_append, List.length_cons, List.length_nil] at hb2
              by_cases hcase : b < (h ++ t1).length
              · have : ((h ++ t1) ++ [HNode.arr vs'])[b]? = (h ++ t1)[b]? :=
                  getElem?_append_lt _ _ _ hcase
                rw [this] at hbget
                exact nodeRangeB_mono le_rfl (by simp) (hseg b nb hb1 hcase hbget)
              · have hb : b = (h ++ t1).length := by
                  simp only [List.length_append] at hcase ⊢
                  omega
                subst hb
                rw [List.getElem?_concat_length] at hbget
                obtain rfl := Option.some.inj hbget
                simp only [nodeRangeB, List.all_eq_true]
                exact fun x hx => valRangeB_mono le_rfl (by simp) (hvals x hx)

/-- `readKVsGo` only depends on the reads of the listed values. -/
theorem readKVsGo_congr {rd1 rd2 : HVal → Option PVal} :
    ∀ {kvs : List (String × HVal)}, (∀ kv ∈ kvs, rd1 kv.2 = rd2 kv.2) →
      readKVsGo rd1 kvs = readKVsGo rd2 kvs := by
  intro kvs
  induction kvs with
  | nil => intro _; rfl
  | cons kx rest ih =>
    intro hh
    obtain ⟨k, x⟩ := kx
    simp only [readKVsGo]
    rw [hh (k, x) (by simp), ih fun kv hkv => hh kv (List.mem_cons_of_mem _ hkv)]

/-- `readArrGo` only depends on the reads of the listed values. -/
theorem readArrGo_congr {rd1 rd2 : HVal → Option PVal} :
    ∀ {vs : List HVal}, (∀ x ∈ vs, rd1 x = rd2 x) →
      readArrGo rd1 vs = readArrGo rd2 vs := by
  intro vs
  induction vs with
  | nil => intro _; rfl
  | cons x rest ih =>
    intro hh
    simp only [readArrGo]
    rw [hh x (by simp), ih fun y hy => hh y (List.mem_cons_of_mem _ hy)]

/-- Read framing: a value referencing only the interval `[lo, hi)` of
a heap whose nodes in that interval are closed within it reads the
same through any heap agreeing on the interval. -/
theorem readV_frame : ∀ (fuel lo hi : Nat) (h1 h2 : Heap) (v : HVal),
    (∀ a, lo ≤ a → a < hi → h2[a]? = h1[a]?) →
    (∀ a nd, lo ≤ a → a < hi → h1[a]? = some nd → nodeRangeB lo hi nd = true) →
    valRangeB lo hi v = true →
    readV fuel h2 v = readV fuel h1 v := by
  intro fuel
  induction fuel with
  | zero =>
    intro lo hi h1 h2 v _ _ _
    cases v <;> rfl
  | succ fuel ih =>
    intro lo hi h1 h2 v hagree hseg hv
    cases v with
    | hint i => rfl
    | hstr s => rfl
    | hbool b => rfl
    | hnone => rfl
    | ref a =>
      simp only [valRangeB, Bool.and_eq_true, decide_eq_true_eq] at hv
      simp only [readV]
      rw [hagree a hv.1 hv.2]
      cases hget : h1[a]? with
      | none => rfl
      | some nd =>
        have hnd := hseg a nd hv.1 hv.2 hget
        cases nd with
        | dict kvs =>
          simp only [nodeRangeB, List.all_eq_true] at hnd
          dsimp only
          rw [readKVsGo_congr fun kv hkv => ih lo hi h1 h2 kv.2 hagree hseg (hnd kv hkv)]
        | arr vs =>
          simp only [nodeRangeB, List.all_eq_true] at hnd
          dsimp only
          rw [readArrGo_congr fun x hx => ih lo hi h1 h2 x hagree hseg (hnd x hx)]

/-- Unpacking `heapWFB`: every stored node is closed in the heap. -/
theorem heapWFB_spec {h : Heap} (hwf : heapWFB h = true) :
    ∀ {a : Nat} {nd : HNode}, h[a]? = some nd → nodeRangeB 0 h.length nd = true := by
  intro a nd hget
  rw [heapWFB, List.all_eq_true] at hwf
  exact hwf nd (List.getElem?_mem hget)

/-- A good copy primitive preserves heap well-formedness. -/
theorem heapWFB_of_copy {cp : Heap → HVal → Option (Heap × HVal)} (hcp : CopyGood cp)
    {h : Heap} {v : HVal} {h' : Heap} {v' : HVal}
    (hwf : heapWFB h = true) (heq : cp h v = some (h', v')) : heapWFB h' = true := by
  obtain ⟨⟨t, rfl⟩, _, hseg⟩ := hcp h v _ _ heq
  rw [heapWFB, List.all_eq_true]
  intro nd hnd
  obtain ⟨a, hget⟩ := List.mem_iff_getElem?.mp hnd
  by_cases hcase : a < h.length
  · rw [getElem?_append_lt _ _ _ hcase] at hget
    exact nodeRangeB_mono le_rfl (by simp) (heapWFB_spec hwf hget)
  · have ha : a < (h ++ t).length := by
      by_contra hcon
      rw [List.getElem?_eq_none (by omega)] at hget
      exact Option.noConfusion hget
    exact nodeRangeB_mono (Nat.zero_le _) le_rfl (hseg a nd (by omega) ha hget)

/-- Element-wise faithfulness of the key/value copy loop: in any
extension `H` of the final heap, the copied values read back exactly
what the originals read in the well-formed base heap `h0`. -/
theorem copyKVsGo_faithful {fuel : Nat}
    (IH : ∀ (hh : Heap) (v : HVal) (hh' : Heap) (v' : HVal), heapWFB hh = true →
      valRangeB 0 hh.length v = true → deepCopyV fuel hh v = some (hh', v') →
      readV fuel hh' v' = readV fuel hh v)
    (h0 : Heap) (hwf0 : heapWFB h0 = true) :
    ∀ (kvs : List (String × HVal)) (h h2 : Heap) (kvs' : List (String × HVal)),
      (∃ t, h = h0 ++ t) → heapWFB h = true →
      (∀ kv ∈ kvs, valRangeB 0 h0.length kv.2 = true) →
      copyKVsGo (fun hh x => deepCopyV fuel hh x) h kvs = some (h2, kvs') →
      ∀ H : Heap, (∃ s, H = h2 ++ s) →
        readKVsGo (fun x => readV fuel H x) kvs' =
          readKVsGo (fun x => readV fuel h0 x) kvs := by
  intro kvs
  induction kvs with
  | nil =>
    intro h h2 kvs' hext hwf hvals heq H hHext
    simp [copyKVsGo] at heq
    obtain ⟨rfl, rfl⟩ := heq
    rfl
  | cons kx rest ih =>
    obtain ⟨k, x⟩ := kx
    intro h h2 kvs' hext hwf hvals heq H hHext
    obtain ⟨t, rfl⟩ := hext
    simp only [copyKVsGo] at heq
    cases hcx : deepCopyV fuel (h0 ++ t) x with
    | none => simp [hcx] at heq
    | some p =>
      obtain ⟨h1, x'⟩ := p
      simp only [hcx] at heq
      cases hrest : copyKVsGo (fun hh x => deepCopyV fuel hh x) h1 rest with
      | none => simp [hrest] at heq
      | some p2 =>
        obtain ⟨hh2, rest'⟩ := p2
        simp only [hrest, Option.some.injEq, Prod.mk.injEq] at heq
        obtain ⟨rfl, rfl⟩ := heq
        obtain ⟨⟨t1, rfl⟩, hvx', hseg1⟩ := deepCopyV_good fuel (h0 ++ t) x _ _ hcx
        obtain ⟨⟨t2, rfl⟩, -, -⟩ :=
          copyKVsGo_good (deepCopyV_good fuel) rest _ _ _ hrest
        obtain ⟨s, rfl⟩ := hHext
        have hx0 : valRangeB 0 h0.length x = true := hvals (k, x) (by simp)
        have e1 : readV fuel ((h0 ++ t) ++ t1) x' = readV fuel (h0 ++ t) x :=
          IH _ _ _ _ hwf (valRangeB_mono le_rfl (by simp) hx0) hcx
        have e2 : readV fuel (h0 ++ t) x = readV fuel h0 x := by
          apply readV_frame fuel 0 h0.length h0 (h0 ++ t)
          · intro a _ ha2; exact getElem?_append_lt _ _ _ ha2
          · intro a nd _ _ hget; exact heapWFB_spec hwf0 hget
          · exact hx0
        have e3 : readV fuel ((((h0 ++ t) ++ t1) ++ t2) ++ s) x' =
            readV fuel ((h0 ++ t) ++ t1) x' := by
          apply readV_frame fuel (h0 ++ t).length ((h0 ++ t) ++ t1).length
          · intro a _ ha2
            rw [getElem?_append_lt _ _ _ (by simp only [List.length_append] at ha2 ⊢; omega),
                getElem?_append_lt _ _ _ ha2]
          · exact hseg1
          · exact hvx'
        have ehead : readV fuel ((((h0 ++ t) ++ t1) ++ t2) ++ s) x' = readV fuel h0 x := by
          rw [e3, e1, e2]
        have etail : readKVsGo (fun y => readV fuel ((((h0 ++ t) ++ t1) ++ t2) ++ s) y) rest' =
            readKVsGo (fun y => readV fuel h0 y) rest := by
          apply ih ((h0 ++ t) ++ t1) _ rest' ⟨t ++ t1, by simp⟩
            (heapWFB_of_copy (deepCopyV_good fuel) hwf hcx)
            (fun kv hkv => hvals kv (List.mem_cons_of_mem _ hkv)) hrest
          exact ⟨s, rfl⟩
        simp only [readKVsGo]
        rw [ehead, etail]

/-- Element-wise faithfulness of the list copy loop. -/
theorem copyArrGo_faithful {fuel : Nat}
    (IH : ∀ (hh : Heap) (v : HVal) (hh' : Heap) (v' : HVal), heapWFB hh = true →
      valRangeB 0 hh.length v = true → deepCopyV fuel hh v = some (hh', v') →
      readV fuel hh' v' = readV fuel hh v)
    (h0 : Heap) (hwf0 : heapWFB h0 = true) :
    ∀ (vs : List HVal) (h h2 : Heap) (vs' : List HVal),
      (∃ t, h = h0 ++ t) → heapWFB h = true →
      (∀ x ∈ vs, valRangeB 0 h0.length x = true) →
      copyArrGo (fun hh x => deepCopyV fuel hh x) h vs = some (h2, vs') →
      ∀ H : Heap, (∃ s, H = h2 ++ s) →
        readArrGo (fun x => readV fuel H x) vs' =
          readArrGo (fun x => readV fuel h0 x) vs := by
  intro vs
  induction vs with
  | nil =>
    intro h h2 vs' hext hwf hvals heq H hHext
    simp [copyArrGo] at heq
    obtain ⟨rfl, rfl⟩ := heq
    rfl
  | cons x rest ih =>
    intro h h2 vs' hext hwf hvals heq H hHext
    obtain ⟨t, rfl⟩ := hext
    simp only [copyArrGo] at heq
    cases hcx : deepCopyV fuel (h0 ++ t) x with
    | none => simp [hcx] at heq
    | some p =>
      obtain ⟨h1, x'⟩ := p
      simp only [hcx] at heq
      cases hrest : copyArrGo (fun hh x => deepCopyV fuel hh x) h1 rest with
      | none => simp [hrest] at heq
      | some p2 =>
        obtain ⟨hh2, rest'⟩ := p2
        simp only [hrest, Option.some.injEq, Prod.mk.injEq] at heq
        obtain ⟨rfl, rfl⟩ := heq
        obtain ⟨⟨t1, rfl⟩, hvx', hseg1⟩ := deepCopyV_good fuel (h0 ++ t) x _ _ hcx
        obtain ⟨⟨t2, rfl⟩, -, -⟩ :=
          copyArrGo_good (deepCopyV_good fuel) rest _ _ _ hrest
        obtain ⟨s, rfl⟩ := hHext
        have hx0 : valRangeB 0 h0.length x = true := hvals x (by simp)
        have e1 : readV fuel ((h0 ++ t) ++ t1) x' = readV fuel (h0 ++ t) x :=
          IH _ _ _ _ hwf (valRangeB_mono le_rfl (by simp) hx0) hcx
        have e2 : readV fuel (h0 ++ t) x = readV fuel h0 x := by
          apply readV_frame fuel 0 h0.length h0 (h0 ++ t)
          · intro a _ ha2; exact getElem?_append_lt _ _ _ ha2
          · intro a nd _ _ hget; exact heapWFB_spec hwf0 hget
          · exact hx0
        have e3 : readV fuel ((((h0 ++ t) ++ t1) ++ t2) ++ s) x' =
            readV fuel ((h0 ++ t) ++ t1) x' := by
          apply readV_frame fuel (h0 ++ t).length ((h0 ++ t) ++ t1).length
          · intro a _ ha2
            rw [getElem?_append_lt _ _ _ (by simp only [List.length_append] at ha2 ⊢; omega),
                getElem?_append_lt _ _ _ ha2]
          · exact hseg1
          · exact hvx'
        have ehead : readV fuel ((((h0 ++ t) ++ t1) ++ t2) ++ s) x' = readV fuel h0 x := by
          rw [e3, e1, e2]
        have etail : readArrGo (fun y => readV fuel ((((h0 ++ t) ++ t1) ++ t2) ++ s) y) rest' =
            readArrGo (fun y => readV fuel h0 y) rest := by
          apply ih ((h0 ++ t) ++ t1) _ rest' ⟨t ++ t1, by simp⟩
            (heapWFB_of_copy (deepCopyV_good fuel) hwf hcx)
            (fun y hy => hvals y (List.mem_cons_of_mem _ hy)) hrest
          exact ⟨s, rfl⟩
        simp only [readArrGo]
        rw [ehead, etail]

/-- Faithfulness of the `deepcopy` model: on a well-formed heap, the
copy reads back exactly the value the original reads. -/
theorem deepCopy_faithful : ∀ (fuel : Nat) (h : Heap) (v : HVal) (h' : Heap) (v' : HVal),
    heapWFB h = true → valRangeB 0 h.length v = true →
    deepCopyV fuel h v = some (h', v') →
    readV fuel h' v' = readV fuel h v := by
  intro fuel
  induction fuel with
  | zero =>
    intro h v h' v' hwf hv heq
    cases v <;> simp [deepCopyV] at heq <;>
      (obtain ⟨rfl, rfl⟩ := heq; rfl)
  | succ fuel ih =>
    intro h v h' v' hwf hv heq
    cases v with
    | hint i => simp [deepCopyV] at heq; obtain ⟨rfl, rfl⟩ := heq; rfl
    | hstr s => simp [deepCopyV] at heq; obtain ⟨rfl, rfl⟩ := heq; rfl
    | hbool b => simp [deepCopyV] at heq; obtain ⟨rfl, rfl⟩ := heq; rfl
    | hnone => simp [deepCopyV] at heq; obtain ⟨rfl, rfl⟩ := heq; rfl
    | ref a =>
      simp only [deepCopyV] at heq
      cases hget : h[a]? with
      | none => simp [hget] at heq
      | some nd =>
        cases nd with
        | dict kvs =>
          cases hcp : copyKVsGo (fun hh x => deepCopyV fuel hh x) h kvs with
          | none => simp [hget, hcp] at heq
          | some p =>
            obtain ⟨h1, kvs'⟩ := p
            simp only [hget, hcp, Option.some.injEq, Prod.mk.injEq] at heq
            obtain ⟨rfl, rfl⟩ := heq
            have hvkvs : ∀ kv ∈ kvs, valRangeB 0 h.length kv.2 = true := by
              have hh := heapWFB_spec hwf hget
              simp only [nodeRangeB, List.all_eq_true] at hh
              exact hh
            have hmain := copyKVsGo_faithful ih h hwf kvs h h1 kvs'
              ⟨[], by simp⟩ hwf hvkvs hcp (h1 ++ [HNode.dict kvs'])
              ⟨[HNode.dict kvs'], rfl⟩
            simp only [readV, hget, List.getElem?_concat_length]
            rw [hmain]
        | arr vs =>
          cases hcp : copyArrGo (fun hh x => deepCopyV fuel hh x) h vs with
          | none => simp [hget, hcp] at heq
          | some p =>
            obtain ⟨h1, vs'⟩ := p
            simp only [hget, hcp, Option.some.injEq, Prod.mk.injEq] at heq
            obtain ⟨rfl, rfl⟩ := heq
            have hvvs : ∀ x ∈ vs, valRangeB 0 h.length x = true := by
              have hh := heapWFB_spec hwf hget
              simp only [nodeRangeB, List.all_eq_true] at hh
              exact hh
            have hmain := copyArrGo_faithful ih h hwf vs h h1 vs'
              ⟨[], by simp⟩ hwf hvvs hcp (h1 ++ [HNode.arr vs'])
              ⟨[HNode.arr vs'], rfl⟩
            simp only [readV, hget, List.getElem?_concat_length]
            rw [hmain]

/-! ### Association-list lemmas for the Python dict model -/

/-- A key reads as absent exactly when it is not among the keys. -/
theorem dictGet_none_iff : ∀ (kvs : List (String × Value)) (k : String),
    dictGet kvs k = Option.none ↔ k ∉ kvs.map Prod.fst := by
  intro kvs k
  induction kvs with
  | nil => simp [dictGet]
  | cons kv rest ih =>
    obtain ⟨k', v⟩ := kv
    by_cases hk : k' = k
    · subst hk
      simp [dictGet]
    · have hk2 : ¬k = k' := fun h => hk h.symm
      simp [dictGet, hk, hk2, ih]

/-- Reading back the key just stored. -/
theorem dictGet_dictSet_self : ∀ (kvs : List (String × Value)) (k : String) (v : Value),
    dictGet (dictSet kvs k v) k = some v := by
  intro kvs k v
  induction kvs with
  | nil => simp [dictSet, dictGet]
  | cons kv rest ih =>
    obtain ⟨k', v'⟩ := kv
    by_cases hk : k' = k
    · subst hk; simp [dictSet, dictGet]
    · simp [dictSet, dictGet, hk, ih]

/-- Storing one key does not affect reads of another. -/
theorem dictGet_dictSet_ne : ∀ (kvs : List (String × Value)) (k' k : String) (v : Value),
    k' ≠ k → dictGet (dictSet kvs k' v) k = dictGet kvs k := by
  intro kvs k' k v hne
  induction kvs with
  | nil => simp [dictSet, dictGet, hne]
  | cons kv rest ih =>
    obtain ⟨k0, v0⟩ := kv
    by_cases hk : k0 = k'
    · subst hk; simp [dictSet, dictGet, hne]
    · simp [dictSet, dictGet, hk, ih]

/-- Reading an appended dict: the left entries shadow the right. -/
theorem dictGet_append : ∀ (xs ys : List (String × Value)) (k : String),
    dictGet (xs ++ ys) k =
      match dictGet xs k with
      | some v => some v
      | Option.none => dictGet ys k := by
  intro xs ys k
  induction xs with
  | nil => simp [dictGet]
  | cons kv rest ih =>
    obtain ⟨k', v⟩ := kv
    by_cases hk : k' = k
    · subst hk; simp [dictGet]
    · simp [dictGet, hk, ih]

/-- Storing an already-present key keeps the key list unchanged. -/
theorem dictSet_keys_mem : ∀ (kvs : List (String × Value)) (k : String) (v : Value),
    k ∈ kvs.map Prod.fst → (dictSet kvs k v).map Prod.fst = kvs.map Prod.fst := by
  intro kvs k v hmem
  induction kvs with
  | nil => simp at hmem
  | cons kv rest ih =>
    obtain ⟨k', v'⟩ := kv
    by_cases hk : k' = k
    · subst hk; simp [dictSet]
    · have : k ∈ rest.map Prod.fst := by
        rcases List.mem_cons.mp hmem with h | h
        · exact absurd h.symm hk
        · exact h
      simp [dictSet, hk, ih this]

/-- Storing a fresh key appends it to the key list. -/
theorem dictSet_keys_notmem : ∀ (kvs : List (String × Value)) (k : String) (v : Value),
    k ∉ kvs.map Prod.fst →
    (dictSet kvs k v).map Prod.fst = kvs.map Prod.fst ++ [k] := by
  intro kvs k v hmem
  induction kvs with
  | nil => simp [dictSet]
  | cons kv rest ih =>
    obtain ⟨k', v'⟩ := kv
    simp only [List.map_cons, List.mem_cons] at hmem
    push_neg at hmem
    have hk : ¬k' = k := fun h => hmem.1 h.symm
    simp [dictSet, hk, ih hmem.2]

/-- Updating with keys that do not include `k` leaves `k`'s read. -/
theorem dictUpdate_get_notmem : ∀ (upd base : List (String × Value)) (k : String),
    k ∉ upd.map Prod.fst → dictGet (dictUpdate base upd) k = dictGet base k := by
  intro upd
  induction upd with
  | nil => intro base k _; rfl
  | cons kv rest ih =>
    obtain ⟨k', v⟩ := kv
    intro base k hmem
    simp only [List.map_cons, List.mem_cons] at hmem
    push_neg at hmem
    simp only [dictUpdate]
    rw [ih _ _ hmem.2, dictGet_dictSet_ne _ _ _ _ (fun h => hmem.1 h.symm)]

/-- Updating with a duplicate-free dict makes each of its entries the
final read. -/
theorem dictUpdate_get_mem : ∀ (upd base : List (String × Value)) (k : String) (w : Value),
    (upd.map Prod.fst).Nodup → dictGet upd k = some w →
    dictGet (dictUpdate base upd) k = some w := by
  intro upd
  induction upd with
  | nil => intro base k w _ h; simp [dictGet] at h
  | cons kv rest ih =>
    obtain ⟨k', v⟩ := kv
    intro base k w hnd hget
    simp only [List.map_cons, List.nodup_cons] at hnd
    by_cases hk : k' = k
    · subst hk
      have hvw : v = w := by simpa [dictGet] using hget
      subst hvw
      simp only [dictUpdate]
      rw [dictUpdate_get_notmem _ _ _ hnd.1, dictGet_dictSet_self]
    · simp only [dictGet, if_neg hk] at hget
      simp only [dictUpdate]
      exact ih _ _ _ hnd.2 hget

/-! ### Lemmas about the parse and group loops -/

/-- An unrecognized operator logs and yields `None` without raising. -/
theorem methodParser_unknown : ∀ (f op : String) (v : Value), op ∉ availableOps →
    methodParser f op v = .ok (.none, [.opNotAvailable op]) := by
  intro f op v hop
  simp only [availableOps, List.mem_cons, List.not_mem_nil, or_false] at hop
  push_neg at hop
  obtain ⟨h1, h2, h3, h4, h5, h6, h7, h8, h9, h10, h11, h12, h13⟩ := hop
  rw [methodParser.eq_def, if_neg h13]
  simp only [mpNonRec, if_neg h1, if_neg h2, if_neg h3, if_neg h4, if_neg h5, if_neg h6,
    if_neg h7, if_neg h8, if_neg h9, if_neg h10, if_neg h11, if_neg h12]

/-- Splitting `pfLoop` over list concatenation: a successful prefix
run continues with its accumulator and logs. -/
theorem pfLoop_append : ∀ (xs ys : List Cond) (acc : List (String × Value)) (lgs : Logs)
    (d : List (String × Value)) (l : Logs),
    pfLoop xs acc lgs = .ok (d, l) → pfLoop (xs ++ ys) acc lgs = pfLoop ys d l := by
  intro xs
  induction xs with
  | nil =>
    intro ys acc lgs d l heq
    simp only [pfLoop, Except.ok.injEq, Prod.mk.injEq] at heq
    obtain ⟨rfl, rfl⟩ := heq
    rfl
  | cons c rest ih =>
    obtain ⟨f, o, w⟩ := c
    intro ys acc lgs d l heq
    simp only [List.cons_append, pfLoop] at heq ⊢
    cases hd : dictGet acc f with
    | some old =>
      simp only [hd] at heq ⊢
      cases hmp : methodParser f o w with
      | error e => simp [hmp] at heq
      | ok p =>
        obtain ⟨frag, lg⟩ := p
        simp only [hmp] at heq ⊢
        cases hup : updateInto old frag with
        | error e => simp [hup] at heq
        | ok merged =>
          simp only [hup] at heq ⊢
          exact ih _ _ _ _ _ heq
    | none =>
      simp only [hd] at heq ⊢
      cases hmp : methodParser f o w with
      | error e => simp [hmp] at heq
      | ok p =>
        obtain ⟨frag, lg⟩ := p
        simp only [hmp] at heq ⊢
        exact ih _ _ _ _ _ heq

/-- Fields never mentioned by the conditions stay absent through
`pfLoop`. -/
theorem pfLoop_keys_none : ∀ (conds : List Cond) (acc : List (String × Value)) (lgs : Logs)
    (d : List (String × Value)) (l : Logs) (f : String),
    pfLoop conds acc lgs = .ok (d, l) → dictGet acc f = Option.none →
    (∀ c ∈ conds, c.1 ≠ f) → dictGet d f = Option.none := by
  intro conds
  induction conds with
  | nil =>
    intro acc lgs d l f heq hacc _
    simp only [pfLoop, Except.ok.injEq, Prod.mk.injEq] at heq
    obtain ⟨rfl, rfl⟩ := heq
    exact hacc
  | cons c rest ih =>
    obtain ⟨g, o, w⟩ := c
    intro acc lgs d l f heq hacc hne
    have hgf : g ≠ f := hne (g, o, w) (by simp)
    simp only [pfLoop] at heq
    cases hd : dictGet acc g with
    | some old =>
      simp only [hd] at heq
      cases hmp : methodParser g o w with
      | error e => simp [hmp] at heq
      | ok p =>
        obtain ⟨frag, lg⟩ := p
        simp only [hmp] at heq
        cases hup : updateInto old frag with
        | error e => simp [hup] at heq
        | ok merged =>
          simp only [hup] at heq
          exact ih _ _ _ _ _ heq
            (by rw [dictGet_dictSet_ne _ _ _ _ hgf]; exact hacc)
            (fun c hc => hne c (List.mem_cons_of_mem _ hc))
    | none =>
      simp only [hd] at heq
      cases hmp : methodParser g o w with
      | error e => simp [hmp] at heq
      | ok p =>
        obtain ⟨frag, lg⟩ := p
        simp only [hmp] at heq
        refine ih _ _ _ _ _ heq ?_ (fun c hc => hne c (List.mem_cons_of_mem _ hc))
        rw [dictGet_append]
        simp [hacc, dictGet, hgf]

/-- `pfLoop` keeps the keys of its accumulator duplicate-free. -/
theorem pfLoop_nodup : ∀ (conds : List Cond) (acc : List (String × Value)) (lgs : Logs)
    (d : List (String × Value)) (l : Logs),
    pfLoop conds acc lgs = .ok (d, l) → (acc.map Prod.fst).Nodup →
    (d.map Prod.fst).Nodup := by
  intro conds
  induction conds with
  | nil =>
    intro acc lgs d l heq hnd
    simp only [pfLoop, Except.ok.injEq, Prod.mk.injEq] at heq
    obtain ⟨rfl, rfl⟩ := heq
    exact hnd
  | cons c rest ih =>
    obtain ⟨g, o, w⟩ := c
    intro acc lgs d l heq hnd
    simp only [pfLoop] at heq
    cases hd : dictGet acc g with
    | some old =>
      simp only [hd] at heq
      cases hmp : methodParser g o w with
      | error e => simp [hmp] at heq
      | ok p =>
        obtain ⟨frag, lg⟩ := p
        simp only [hmp] at heq
        cases hup : updateInto old frag with
        | error e => simp [hup] at heq
        | ok merged =>
          simp only [hup] at heq
          have hmem : g ∈ acc.map Prod.fst := by
            by_contra hcon
            rw [← dictGet_none_iff] at hcon
            rw [hcon] at hd
            exact Option.noConfusion hd
          exact ih _ _ _ _ heq (by rw [dictSet_keys_mem _ _ _ hmem]; exact hnd)
    | none =>
      simp only [hd] at heq
      cases hmp : methodParser g o w with
      | error e => simp [hmp] at heq
      | ok p =>
        obtain ⟨frag, lg⟩ := p
        simp only [hmp] at heq
        refine ih _ _ _ _ heq ?_
        have hmem : g ∉ acc.map Prod.fst := (dictGet_none_iff _ _).mp hd
        simp [List.nodup_append, hnd, hmem]

/-- A translator-error-free group loop emits exactly one fragment per
condition. -/
theorem factoryLoop_ok_length : ∀ (conds : List Cond) (frags : List Value) (lgs : Logs),
    factoryLoop conds = (.ok (), frags, lgs) → frags.length = conds.length := by
  intro conds
  induction conds with
  | nil =>
    intro frags lgs heq
    simp only [factoryLoop, Prod.mk.injEq] at heq
    obtain ⟨-, rfl, rfl⟩ := heq
    rfl
  | cons c rest ih =>
    obtain ⟨f, o, w⟩ := c
    intro frags lgs heq
    simp only [factoryLoop] at heq
    cases hmp : methodParser f o w with
    | error e => simp [hmp] at heq
    | ok p =>
      obtain ⟨frag, lg⟩ := p
      simp only [hmp] at heq
      cases hrest : factoryLoop rest with
      | mk st p2 =>
        obtain ⟨frags', lgs'⟩ := p2
        simp only [hrest, Prod.mk.injEq] at heq
        obtain ⟨rfl, rfl, rfl⟩ := heq
        simp [ih _ _ (by rw [hrest])]

/-! ### Claim theorems -/

/-- C1 (counterexample): the claim says an unknown-operator condition
yields a filter in which that field's clause is absent.  In the code,
`method_parser` returns `None` and `parse_filters` stores it, so
`search` with the unknown operator `~~` produces a filter whose `x`
key is present and maps to `None` — not absent. -/
theorem c1_unknown_operator_counterexample :
    (Query.search (Query.init false) [("x", "~~", Value.int 1)]).2.1.filter =
      [("x", Value.none)] ∧
    dictGet (Query.search (Query.init false) [("x", "~~", Value.int 1)]).2.1.filter "x" =
      some Value.none :=
  ⟨rfl, rfl⟩

/-- C1 (amended): for every condition whose operator is not in the
recognized operator set, composition stores the field mapped to a
`None` fragment (present as a key, carrying no usable constraint)
rather than omitting it; an error is logged and — provided the field
does not collide with another condition of the same call — no
exception is raised, and the remaining conditions still contribute
their clauses.  The group operations append a `{field: None}` fragment
likewise. -/
theorem c1_unknown_operator_amended :
    ∀ (others : List Cond) (f op : String) (v : Value)
      (d0 : List (String × Value)) (l0 : Logs) (q : Query),
    op ∉ availableOps →
    (∀ c ∈ others, c.1 ≠ f) →
    parseFilters others = .ok (d0, l0) →
    parseFilters (others ++ [(f, op, v)]) =
        .ok (d0 ++ [(f, Value.none)], l0 ++ [.opNotAvailable op]) ∧
    Query.search q (others ++ [(f, op, v)]) =
        (.ok (), { q with filter := dictUpdate q.filter (d0 ++ [(f, Value.none)]) },
          l0 ++ [.opNotAvailable op]) ∧
    factoryLoop [(f, op, v)] = (.ok (), [Value.dict [(f, Value.none)]], [.opNotAvailable op]) := by
  intro others f op v d0 l0 q hop hne hpf
  have hkey : dictGet d0 f = Option.none :=
    pfLoop_keys_none others [] [] d0 l0 f hpf rfl hne
  have hmp := methodParser_unknown f op v hop
  have hmain : parseFilters (others ++ [(f, op, v)]) =
      .ok (d0 ++ [(f, Value.none)], l0 ++ [.opNotAvailable op]) := by
    unfold parseFilters at hpf ⊢
    rw [pfLoop_append others [(f, op, v)] [] [] d0 l0 hpf]
    simp [pfLoop, hkey, hmp]
  refine ⟨hmain, ?_, ?_⟩
  · simp [Query.search, hmain]
  · simp [factoryLoop, hmp]

/-- C1 (witness): concrete instance of the amended claim with the
unknown operator `~~` after a recognized `==` condition. -/
theorem c1_unknown_operator_witness :
    parseFilters ([("y", "==", Value.int 2)] ++ [("x", "~~", Value.int 1)]) =
      .ok ([("y", Value.int 2), ("x", Value.none)], [.opNotAvailable "~~"]) :=
  (c1_unknown_operator_amended [("y", "==", Value.int 2)] "x" "~~" (Value.int 1)
    [("y", Value.int 2)] [] (Query.init false) (by decide) (by decide) rfl).1

/-- C2 (code bug): the claim — following the spec — says an `in_range`
condition with a non-mapping value logs an error and omits the
fragment without raising, and that composition never raises.  The code
evaluates `value["min"]` eagerly inside the argument to `checker`, so
the `isinstance` soft-failure path is dead: `search` and `and_search`
with `("score", "in_range", 5)` raise `TypeError` and leave the
accumulator untouched. -/
theorem c2_in_range_type_mismatch_raises :
    Query.search (Query.init false) [("score", "in_range", Value.int 5)] =
      (.error (.typeError "value is not subscriptable"), Query.init false, []) ∧
    Query.and_search (Query.init false) [("score", "in_range", Value.int 5)] =
      (.error (.typeError "value is not subscriptable"), Query.init false, []) ∧
    methodParser "score" "in_range" (Value.int 5) =
      .error (.typeError "value is not subscriptable") :=
  ⟨rfl, rfl, rfl⟩

/-- C4 (counterexample): the claim says that whenever the same field
appears in two conditions of one composition call, the later fragment
is merged into the earlier by key-wise update.  When the earlier
fragment is not a mapping — here the literal produced by `==` — the
call instead raises `AttributeError` and produces no filter at all. -/
theorem c4_field_merge_counterexample :
    Query.search (Query.init false) [("x", "==", Value.int 1), ("x", "<=", Value.int 10)] =
      (.error (.attributeError "object has no attribute update"), Query.init false, []) :=
  rfl

/-- C4 (amended): within one composition call (plain `search` parse or
the inner conditions of `array_contains`), a repeated field's later
fragment is merged into the earlier one by key-wise update rather than
replacement, provided both translated fragments are mappings; in
particular `>=` and `<=` on one field produce a single fragment with
both bounds. -/
theorem c4_field_merge_amended :
    ∀ (f op1 op2 : String) (v1 v2 : Value) (d1 d2 : List (String × Value)) (l1 l2 : Logs),
    methodParser f op1 v1 = .ok (.dict d1, l1) →
    methodParser f op2 v2 = .ok (.dict d2, l2) →
    (parseFilters [(f, op1, v1), (f, op2, v2)] =
        .ok ([(f, Value.dict (dictUpdate d1 d2))], l1 ++ l2)) ∧
    (acGo [Value.list [.str f, .str op1, v1], Value.list [.str f, .str op2, v2]] [] [] =
        .ok ([(f, Value.dict (dictUpdate d1 d2))], l1 ++ l2)) ∧
    (arrayContainsFilterParser
        (.list [Value.list [.str f, .str op1, v1], Value.list [.str f, .str op2, v2]]) =
        .ok (.dict [("$elemMatch", .dict [(f, Value.dict (dictUpdate d1 d2))])], l1 ++ l2)) ∧
    (parseFilters [("x", ">=", Value.int 1), ("x", "<=", Value.int 10)] =
        .ok ([("x", Value.dict [("$gte", Value.int 1), ("$lte", Value.int 10)])], [])) := by
  intro f op1 op2 v1 v2 d1 d2 l1 l2 h1 h2
  have hac : acGo [Value.list [.str f, .str op1, v1], Value.list [.str f, .str op2, v2]] [] [] =
      .ok ([(f, Value.dict (dictUpdate d1 d2))], l1 ++ l2) := by
    simp [acGo, dictGet, h1, h2, updateInto, dictSet]
  refine ⟨?_, hac, ?_, rfl⟩
  · simp [parseFilters, pfLoop, dictGet, h1, h2, updateInto, dictSet]
  · simp [arrayContainsFilterParser, acWrap, hac]

/-- C4 (witness): concrete instance of the amended claim for `>=`
then `<=` on one field. -/
theorem c4_field_merge_witness :
    parseFilters [("x", ">=", Value.int 1), ("x", "<=", Value.int 10)] =
      .ok ([("x", Value.dict (dictUpdate [("$gte", Value.int 1)] [("$lte", Value.int 10)]))],
        [] ++ []) :=
  (c4_field_merge_amended "x" ">=" "<=" (Value.int 1) (Value.int 10)
    [("$gte", Value.int 1)] [("$lte", Value.int 10)] [] [] rfl rfl).1

/-- C5: translating `(field, in_range, {min: lo, max: hi})` yields
exactly the same filter fragment as merging `(field, >=, lo)` and
`(field, <=, hi)` in one composition call. -/
theorem c5_in_range_equiv_bounds :
    ∀ (f : String) (lo hi : Value),
    methodParser f "in_range" (Value.dict [("min", lo), ("max", hi)]) =
      .ok (.dict [("$gte", lo), ("$lte", hi)], []) ∧
    parseFilters [(f, ">=", lo), (f, "<=", hi)] =
      .ok ([(f, Value.dict [("$gte", lo), ("$lte", hi)])], []) ∧
    parseFilters [(f, "in_range", Value.dict [("min", lo), ("max", hi)])] =
      .ok ([(f, Value.dict [("$gte", lo), ("$lte", hi)])], []) ∧
    parseFilters [(f, "in_range", Value.dict [("min", lo), ("max", hi)])] =
      parseFilters [(f, ">=", lo), (f, "<=", hi)] := by
  intro f lo hi
  have hge : methodParser f ">=" lo = .ok (.dict [("$gte", lo)], []) := by
    rw [methodParser.eq_def]
    simp [mpNonRec]
  have hle : methodParser f "<=" hi = .ok (.dict [("$lte", hi)], []) := by
    rw [methodParser.eq_def]
    simp [mpNonRec]
  have hir : methodParser f "in_range" (Value.dict [("min", lo), ("max", hi)]) =
      .ok (.dict [("$gte", lo), ("$lte", hi)], []) := by
    rw [methodParser.eq_def]
    simp [mpNonRec, dictGet]
  have hb : parseFilters [(f, ">=", lo), (f, "<=", hi)] =
      .ok ([(f, Value.dict [("$gte", lo), ("$lte", hi)])], []) := by
    simp [parseFilters, pfLoop, dictGet, hge, hle, updateInto, dictSet, dictUpdate]
  have hi2 : parseFilters [(f, "in_range", Value.dict [("min", lo), ("max", hi)])] =
      .ok ([(f, Value.dict [("$gte", lo), ("$lte", hi)])], []) := by
    simp [parseFilters, pfLoop, dictGet, hir]
  exact ⟨hir, hb, hi2, by rw [hb, hi2]⟩

/-- C3: `get_by_id` overwrites the accumulator with the exact-id
filter, performs the single-document lookup with exactly that filter,
and (on the non-raising path) leaves the accumulator empty, so a
subsequent `get_all` passes the empty filter to the engine; every
other execution operation (`get_all`, `get_one_or_none`, `count`,
`distinct`) leaves the accumulator exactly unchanged. -/
theorem c3_get_by_id_reset_frame :
    ∀ (q : Query) (eng : Engine) (id : String) (proj : Option Value),
    ((Query.get_by_id q eng id proj).1 =
        eng.find_one (Value.dict [("_id", Value.str id)]) Option.none proj) ∧
    (∀ r, (Query.get_by_id q eng id proj).1 = .ok r →
        (Query.get_by_id q eng id proj).2.1.filter = []) ∧
    (∀ r, (Query.get_by_id q eng id proj).1 = .ok r →
        ∀ s l p, (Query.get_all (Query.get_by_id q eng id proj).2.1 eng s l p).1 =
          eng.find (Value.dict []) s l p) ∧
    (∀ s l p, (Query.get_all q eng s l p).2.1 = q) ∧
    (∀ s p, (Query.get_one_or_none q eng s p).2.1 = q) ∧
    ((Query.count q eng).2.1 = q) ∧
    (∀ k, (Query.distinct q eng k).2.1 = q) := by
  intro q eng id proj
  cases hfo : eng.find_one (Value.dict [("_id", Value.str id)]) Option.none proj with
  | ok r0 =>
    refine ⟨?_, ?_, ?_, fun s l p => rfl, fun s p => rfl, rfl, fun k => rfl⟩
    · simp [Query.get_by_id, Query.get_one_or_none, Query.get_filter, hfo]
    · intro r _
      simp [Query.get_by_id, Query.get_one_or_none, Query.get_filter, hfo]
    · intro r _ s l p
      simp [Query.get_by_id, Query.get_one_or_none, Query.get_all, Query.get_filter, hfo]
  | error e =>
    refine ⟨?_, ?_, ?_, fun s l p => rfl, fun s p => rfl, rfl, fun k => rfl⟩
    · simp [Query.get_by_id, Query.get_one_or_none, Query.get_filter, hfo]
    · intro r hr
      simp [Query.get_by_id, Query.get_one_or_none, Query.get_filter, hfo] at hr
    · intro r hr
      simp [Query.get_by_id, Query.get_one_or_none, Query.get_filter, hfo] at hr

/-- C3 (witness): with an always-succeeding engine, `get_by_id`
returns the found document and leaves the accumulator empty. -/
theorem c3_get_by_id_reset_frame_witness :
    (Query.get_by_id (Query.init false) engStubOk "abc" Option.none).1 =
      .ok (some (Value.int 7)) ∧
    (Query.get_by_id (Query.init false) engStubOk "abc" Option.none).2.1.filter = [] := by
  refine ⟨rfl, ?_⟩
  exact (c3_get_by_id_reset_frame (Query.init false) engStubOk "abc" Option.none).2.1
    (some (Value.int 7)) rfl

/-- C6: every `and_search` / `or_search` / `nor_search` call whose
conditions all translate without raising appends exactly one fragment
per condition to the list stored under its `$`-prefixed group key —
appending to an existing list rather than replacing it — and two
`and_search` calls with one condition each leave a list of length 2
under `$and`. -/
theorem c6_group_append :
    ∀ (q : Query) (conds : List Cond) (frags : List Value) (lgs : Logs) (binop : String),
    factoryLoop conds = (.ok (), frags, lgs) →
    (frags.length = conds.length) ∧
    (dictGet q.filter ("$" ++ binop) = Option.none →
      (factoryAndOrNor q conds binop).1 = .ok () ∧
      (factoryAndOrNor q conds binop).2.1.filter =
        dictSet q.filter ("$" ++ binop) (.list frags)) ∧
    (∀ l0, dictGet q.filter ("$" ++ binop) = some (.list l0) →
      (factoryAndOrNor q conds binop).1 = .ok () ∧
      (factoryAndOrNor q conds binop).2.1.filter =
        dictSet q.filter ("$" ++ binop) (.list (l0 ++ frags))) ∧
    (Query.and_search q conds = factoryAndOrNor q conds "and" ∧
     Query.or_search q conds = factoryAndOrNor q conds "or" ∧
     Query.nor_search q conds = factoryAndOrNor q conds "nor") ∧
    (dictGet ((Query.and_search
        (Query.and_search (Query.init false) [("a", "==", Value.int 1)]).2.1
        [("b", "==", Value.int 2)]).2.1.filter) "$and" =
      some (.list [Value.dict [("a", Value.int 1)], Value.dict [("b", Value.int 2)]])) := by
  intro q conds frags lgs binop hloop
  refine ⟨factoryLoop_ok_length conds frags lgs hloop, ?_, ?_, ⟨rfl, rfl, rfl⟩, rfl⟩
  · intro hn
    constructor <;> simp [factoryAndOrNor, hn, hloop]
  · intro l0 hsome
    constructor <;> simp [factoryAndOrNor, hsome, hloop]

/-- C6 (witness): concrete `and_search` call on a fresh builder. -/
theorem c6_group_append_witness :
    ([Value.dict [("a", Value.int 1)]].length =
      ([(("a" : String), ("==" : String), Value.int 1)] : List Cond).length) ∧
    (factoryAndOrNor (Query.init false) [("a", "==", Value.int 1)] "and").2.1.filter =
      dictSet (Query.init false).filter "$and" (.list [Value.dict [("a", Value.int 1)]]) := by
  have h := c6_group_append (Query.init false) [("a", "==", Value.int 1)]
    [Value.dict [("a", Value.int 1)]] [] "and" rfl
  exact ⟨h.1, (h.2.1 rfl).2⟩

/-- C7: `_get_filter` hands the engine a deep copy of the accumulator:
the copy only appends fresh nodes to the heap, any heap that preserves
the freshly copied segment — in particular any later mutation of the
pre-existing accumulator object graph, at any nesting depth — reads
the snapshot unchanged, and on a well-formed heap the snapshot reads
exactly the accumulator's value; each execution operation passes the
`get_filter` snapshot to its storage-engine call. -/
theorem c7_deepcopy_snapshot_isolation :
    ∀ (fuel : Nat) (h : Heap) (acc : HVal) (h2 : Heap) (snap : HVal),
    deepCopyV fuel h acc = some (h2, snap) →
    (∃ t, h2 = h ++ t) ∧
    (∀ hm : Heap, (∀ a, a < h2.length → h.length ≤ a → hm[a]? = h2[a]?) →
      ∀ g, readV g hm snap = readV g h2 snap) ∧
    (heapWFB h = true → valRangeB 0 h.length acc = true →
      readV fuel h2 snap = readV fuel h acc) ∧
    (∀ (q : Query) (eng : Engine) (s : Option (List (String × Int))) (l : Nat)
        (p : Option Value), (Query.get_all q eng s l p).1 = eng.find q.get_filter.1 s l p) ∧
    (∀ (q : Query) (eng : Engine) (s : Option (List (String × Int))) (p : Option Value),
      (Query.get_one_or_none q eng s p).1 = eng.find_one q.get_filter.1 s p) ∧
    (∀ (q : Query) (eng : Engine),
      (Query.count q eng).1 = eng.count_documents q.get_filter.1) ∧
    (∀ (q : Query) (eng : Engine) (k : String),
      (Query.distinct q eng k).1 = eng.distinct k q.get_filter.1) := by
  intro fuel h acc h2 snap hcopy
  obtain ⟨hext, hval, hseg⟩ := deepCopyV_good fuel h acc h2 snap hcopy
  refine ⟨hext, ?_, ?_, fun q eng s l p => rfl, fun q eng s p => rfl,
    fun q eng => rfl, fun q eng k => rfl⟩
  · intro hm hagree g
    exact readV_frame g h.length h2.length h2 hm snap
      (fun a ha1 ha2 => hagree a ha2 ha1) hseg hval
  · intro hwf hv
    exact deepCopy_faithful fuel h acc h2 snap hwf hv hcopy

/-- C7 (witness): a concrete two-node accumulator graph is deep
copied; mutating both original nodes leaves the snapshot's read
unchanged, and the snapshot reads the accumulator's original value. -/
theorem c7_deepcopy_snapshot_isolation_witness :
    (deepCopyV 3 snapHeap0 (HVal.ref 1) = some (snapHeap2, HVal.ref 3)) ∧
    (readV 3 snapHeapM (HVal.ref 3) = readV 3 snapHeap2 (HVal.ref 3)) ∧
    (readV 3 snapHeap2 (HVal.ref 3) = readV 3 snapHeap0 (HVal.ref 1)) := by
  refine ⟨rfl, ?_, ?_⟩
  · exact (c7_deepcopy_snapshot_isolation 3 snapHeap0 (HVal.ref 1) snapHeap2 (HVal.ref 3)
      rfl).2.1 snapHeapM (by decide) 3
  · exact (c7_deepcopy_snapshot_isolation 3 snapHeap0 (HVal.ref 1) snapHeap2 (HVal.ref 3)
      rfl).2.2.1 (by decide) (by decide)

/-- C8: the translator returns exactly the fragment prescribed by the
operator table — `==` the literal value, `!=` a not-equal fragment,
the four comparisons their range fragments, `in` a membership
fragment, `like` a case-sensitive and `ilike` a case-insensitive
pattern fragment, `has_field` an existence fragment for a boolean
flag, `as_type` a declared-type fragment, and `array_contains` an
element-match wrapper around the recursively translated inner
conditions. -/
theorem c8_operator_table :
    ∀ (f : String) (v : Value),
    (methodParser f "==" v = .ok (v, [])) ∧
    (methodParser f "!=" v = .ok (.dict [("$ne", v)], [])) ∧
    (methodParser f ">" v = .ok (.dict [("$gt", v)], [])) ∧
    (methodParser f ">=" v = .ok (.dict [("$gte", v)], [])) ∧
    (methodParser f "<" v = .ok (.dict [("$lt", v)], [])) ∧
    (methodParser f "<=" v = .ok (.dict [("$lte", v)], [])) ∧
    (methodParser f "in" v = .ok (.dict [("$in", v)], [])) ∧
    (methodParser f "like" v = .ok (.dict [("$regex", v)], [])) ∧
    (methodParser f "ilike" v = .ok (.dict [("$regex", v), ("$options", .str "i")], [])) ∧
    (∀ b : Bool, methodParser f "has_field" (.bool b) =
      .ok (.dict [("$exists", .bool b)], [])) ∧
    (methodParser f "as_type" v = .ok (.dict [("$type", v)], [])) ∧
    (∀ (items : List Value) (d : List (String × Value)) (lgs : Logs),
      acGo items [] [] = .ok (d, lgs) →
      methodParser f "array_contains" (.list items) =
        .ok (.dict [("$elemMatch", .dict d)], lgs)) := by
  intro f v
  refine ⟨?_, ?_, ?_, ?_, ?_, ?_, ?_, ?_, ?_, ?_, ?_, ?_⟩
  case _ => rw [methodParser.eq_def]; simp [mpNonRec]
  case _ => rw [methodParser.eq_def]; simp [mpNonRec]
  case _ => rw [methodParser.eq_def]; simp [mpNonRec]
  case _ => rw [methodParser.eq_def]; simp [mpNonRec]
  case _ => rw [methodParser.eq_def]; simp [mpNonRec]
  case _ => rw [methodParser.eq_def]; simp [mpNonRec]
  case _ => rw [methodParser.eq_def]; simp [mpNonRec]
  case _ => rw [methodParser.eq_def]; simp [mpNonRec]
  case _ => rw [methodParser.eq_def]; simp [mpNonRec]
  case _ => intro b; rfl
  case _ => rw [methodParser.eq_def]; simp [mpNonRec]
  case _ =>
    intro items d lgs hac
    rw [methodParser.eq_def]
    simp [hac, acWrap]

/-- C8 (witness): the operator table at concrete inputs, including a
recursive `array_contains` translation. -/
theorem c8_operator_table_witness :
    (acGo [Value.list [.str "a", .str ">=", Value.int 1]] [] [] =
      .ok ([("a", Value.dict [("$gte", Value.int 1)])], [])) ∧
    (methodParser "arr" "array_contains"
        (.list [Value.list [.str "a", .str ">=", Value.int 1]]) =
      .ok (.dict [("$elemMatch", .dict [("a", Value.dict [("$gte", Value.int 1)])])], [])) ∧
    (methodParser "x" "==" (Value.int 3) = .ok (Value.int 3, [])) := by
  refine ⟨rfl, ?_, ?_⟩
  · exact (c8_operator_table "arr" Value.none).2.2.2.2.2.2.2.2.2.2.2
      [Value.list [.str "a", .str ">=", Value.int 1]]
      [("a", Value.dict [("$gte", Value.int 1)])] [] rfl
  · exact (c8_operator_table "x" (Value.int 3)).1

/-- C9: when the engine's single-document lookup raises inside
`get_by_id`, the error propagates and the accumulator is left holding
the exact-id filter — the reset to empty happens only on the success
path. -/
theorem c9_get_by_id_error_path :
    ∀ (q : Query) (eng : Engine) (id : String) (proj : Option Value) (e : EngErr),
    eng.find_one (Value.dict [("_id", Value.str id)]) Option.none proj = .error e →
    (Query.get_by_id q eng id proj).1 = .error e ∧
    (Query.get_by_id q eng id proj).2.1.filter = [("_id", Value.str id)] := by
  intro q eng id proj e he
  constructor <;> simp [Query.get_by_id, Query.get_one_or_none, Query.get_filter, he]

/-- C9 (witness): with an always-raising engine, `get_by_id`
propagates the error and the accumulator holds the exact-id filter. -/
theorem c9_get_by_id_error_path_witness :
    (Query.get_by_id (Query.init false) engStubErr "abc" Option.none).1 =
      .error (.fail "connection reset") ∧
    (Query.get_by_id (Query.init false) engStubErr "abc" Option.none).2.1.filter =
      [("_id", Value.str "abc")] :=
  c9_get_by_id_error_path (Query.init false) engStubErr "abc" Option.none
    (.fail "connection reset") rfl

/-- C10: across two separate `search` calls, a field mentioned by both
takes the second call's fragment entirely at the top level of the
accumulator (dict update replaces at existing keys); the key-wise
field merge only happens among conditions of a single call. -/
theorem c10_search_last_call_wins :
    ∀ (q : Query) (cs1 cs2 : List Cond) (nf1 nf2 : List (String × Value)) (l1 l2 : Logs)
      (f : String) (w : Value),
    parseFilters cs1 = .ok (nf1, l1) →
    parseFilters cs2 = .ok (nf2, l2) →
    dictGet nf2 f = some w →
    dictGet (Query.search (Query.search q cs1).2.1 cs2).2.1.filter f = some w := by
  intro q cs1 cs2 nf1 nf2 l1 l2 f w h1 h2 hget
  have hnd : (nf2.map Prod.fst).Nodup := pfLoop_nodup cs2 [] [] nf2 l2 h2 (by simp)
  simp only [Query.search, h1, h2]
  exact dictUpdate_get_mem nf2 _ f w hnd hget

/-- C10 (witness): `search x >= 1` then `search x <= 10` leaves only
the second call's fragment under `x`. -/
theorem c10_search_last_call_wins_witness :
    dictGet (Query.search (Query.search (Query.init false)
        [("x", ">=", Value.int 1)]).2.1 [("x", "<=", Value.int 10)]).2.1.filter "x" =
      some (Value.dict [("$lte", Value.int 10)]) :=
  c10_search_last_call_wins (Query.init false) [("x", ">=", Value.int 1)]
    [("x", "<=", Value.int 10)] [("x", Value.dict [("$gte", Value.int 1)])]
    [("x", Value.dict [("$lte", Value.int 10)])] [] [] "x"
    (Value.dict [("$lte", Value.int 10)]) rfl rfl rfl

end InfraMongo
